import Mathlib

/-!
Verification of the apple_health_parser repository.

Part A embeds `src/apple_health_parser/sleep.py`; Part B embeds
`src/apple_health_parser/parser.py`.  Instants (`datetime` values) are
modelled as `Int` seconds since the Unix epoch: the Python objects are
timezone-aware, compared as absolute instants, and never rendered in a
claim, so the epoch-seconds view is faithful.  `timedelta` values become
`Int` seconds as well.
-/

set_option maxHeartbeats 1000000

/-! ## Part A: sleep.py -/

/-- The set `SLEEP_STAGES.values()` from sleep.py (duplicates irrelevant
for membership). -/
def sleepStageValues : List String :=
  ["Awake", "Core", "Deep", "REM", "InBed", "Asleep", "Unspecified"]

/-- `_STAGE_PRIORITY.get(stage, 0)` from sleep.py. -/
def stagePriority (stage : String) : Int :=
  if stage = "Awake" then 5
  else if stage = "REM" then 4
  else if stage = "Deep" then 3
  else if stage = "Core" then 2
  else if stage = "Asleep" then 1
  else 0

/-- The payload of the frozen dataclass `SleepSegment`. -/
structure SleepSegment where
  start_dt : Int
  end_dt : Int
  stage : String
deriving DecidableEq, Repr

/-- `SleepSegment.duration` (seconds). -/
def SleepSegment.duration (s : SleepSegment) : Int := s.end_dt - s.start_dt

/-- `SleepSegment.__post_init__`: validation run at construction time.
The `isinstance` checks are static in the embedding (the fields are
typed); the two `ValueError` branches are modelled as `Except.error`. -/
def mkSleepSegment (start_dt end_dt : Int) (stage : String) :
    Except String SleepSegment :=
  if end_dt < start_dt then
    .error "end_dt cannot be before start_dt"
  else if stage ∉ sleepStageValues then
    .error "Invalid stage"
  else
    .ok ⟨start_dt, end_dt, stage⟩

/-- The filter predicate `s.stage != "InBed" and s.duration > timedelta(0)`
used by both `SleepSession._normalize` and `build_sleep_sessions`. -/
def keepSeg (s : SleepSegment) : Bool :=
  decide (s.stage ≠ "InBed" ∧ 0 < s.duration)

/-- The sort key `(s.start_dt, s.end_dt)` of `SleepSession._normalize`,
as a lexicographic `≤` test. -/
def segKeyLe (x y : SleepSegment) : Bool :=
  decide (x.start_dt < y.start_dt ∨
    (x.start_dt = y.start_dt ∧ x.end_dt ≤ y.end_dt))

/-- One insertion step of the stable sort modelling Python `sorted` with
key `(start_dt, end_dt)`. -/
def insertSeg (x : SleepSegment) : List SleepSegment → List SleepSegment
  | [] => [x]
  | y :: ys => if segKeyLe x y then x :: y :: ys else y :: insertSeg x ys

/-- `sorted(segs, key=lambda s: (s.start_dt, s.end_dt))` (stable). -/
def sortSegs (l : List SleepSegment) : List SleepSegment :=
  l.foldr insertSeg []

/-- Insertion into a strictly increasing list, dropping duplicates:
one step of `sorted(set(...))`. -/
def insertBoundary (x : Int) : List Int → List Int
  | [] => [x]
  | y :: ys =>
    if x < y then x :: y :: ys
    else if x = y then y :: ys
    else y :: insertBoundary x ys

/-- `sorted(set(l))`: strictly increasing list of the distinct members. -/
def dedupSort (l : List Int) : List Int := l.foldr insertBoundary []

/-- `sorted(set(t for s in segs for t in (s.start_dt, s.end_dt)))`. -/
def segBoundaries (segs : List SleepSegment) : List Int :=
  dedupSort ((segs.map fun s => [s.start_dt, s.end_dt]).flatten)

/-- `zip(boundaries, boundaries[1:])`: consecutive boundary pairs. -/
def elemIntervals : List Int → List (Int × Int)
  | a :: b :: rest => (a, b) :: elemIntervals (b :: rest)
  | _ => []

/-- `s.start_dt < b and s.end_dt > a`: does `s` overlap `[a, b)`. -/
def coversInterval (a b : Int) (s : SleepSegment) : Bool :=
  decide (s.start_dt < b ∧ a < s.end_dt)

/-- `[s for s in segs if s.start_dt < b and s.end_dt > a]`. -/
def coveringSegs (segs : List SleepSegment) (a b : Int) : List SleepSegment :=
  segs.filter (coversInterval a b)

/-- Python `max(covering, key=lambda s: _STAGE_PRIORITY.get(s.stage, 0))`:
the first element attaining the maximal key. -/
def maxByPriority : SleepSegment → List SleepSegment → SleepSegment
  | best, [] => best
  | best, s :: rest =>
    if stagePriority best.stage < stagePriority s.stage then
      maxByPriority s rest
    else
      maxByPriority best rest

/-- The winning stage for elementary interval `[a, b)`, or `none` when no
segment covers it (the `continue` branch). -/
def pickStage (segs : List SleepSegment) (a b : Int) : Option String :=
  match coveringSegs segs a b with
  | [] => none
  | c :: cs => some (maxByPriority c cs).stage

/-- The `for a, b in zip(boundaries, boundaries[1:])` loop of
`SleepSession._normalize`, producing `result`. -/
def buildResult (segs : List SleepSegment) :
    List (Int × Int) → List SleepSegment
  | [] => []
  | (a, b) :: rest =>
    match pickStage segs a b with
    | none => buildResult segs rest
    | some st => ⟨a, b, st⟩ :: buildResult segs rest

/-- The final merge loop of `SleepSession._normalize`: `prev` is the
current last element of `merged`. -/
def mergeAdj : SleepSegment → List SleepSegment → List SleepSegment
  | prev, [] => [prev]
  | prev, s :: rest =>
    if s.stage = prev.stage ∧ s.start_dt = prev.end_dt then
      mergeAdj ⟨prev.start_dt, s.end_dt, s.stage⟩ rest
    else
      prev :: mergeAdj s rest

/-- `SleepSession._normalize`. -/
def normalizeSegs (segs0 : List SleepSegment) : List SleepSegment :=
  match segs0.filter keepSeg with
  | [] => []
  | s1 :: rest1 =>
    let segs := sortSegs (s1 :: rest1)
    match buildResult segs (elemIntervals (segBoundaries segs)) with
    | [] => []
    | r :: rs => mergeAdj r rs

/-- The payload of the frozen dataclass `SleepSession`. -/
structure SleepSession where
  start_dt : Int
  end_dt : Int
  segments : List SleepSegment
deriving DecidableEq, Repr

/-- `SleepSession.duration` (seconds). -/
def SleepSession.duration (ss : SleepSession) : Int := ss.end_dt - ss.start_dt

/-- `SleepSession.asleep_duration`: summed durations of non-Awake
segments. -/
def SleepSession.asleep_duration (ss : SleepSession) : Int :=
  ((ss.segments.filter fun s => s.stage != "Awake").map
    SleepSegment.duration).sum

/-- `SleepSession.awake_duration`: summed durations of Awake segments. -/
def SleepSession.awake_duration (ss : SleepSession) : Int :=
  ((ss.segments.filter fun s => s.stage == "Awake").map
    SleepSegment.duration).sum

/-- `SleepSession.awakenings`: count of Awake segments of at least two
minutes. -/
def SleepSession.awakenings (ss : SleepSession) : Nat :=
  (ss.segments.filter fun s =>
    s.stage == "Awake" && decide (120 ≤ s.duration)).length

/-- `SleepSession.from_segments`: normalizeSegs, fail on an empty result,
otherwise take bounds from the first and last normalized segments. -/
def fromSegments (segs : List SleepSegment) : Except String SleepSession :=
  match normalizeSegs segs with
  | [] => .error "SleepSession requires at least one non-InBed segment"
  | r :: rs =>
    .ok ⟨r.start_dt, (List.getLast (r :: rs) (List.cons_ne_nil r rs)).end_dt,
      r :: rs⟩

/-- The grouping loop of `build_sleep_sessions`: `cur` is the current
group (never empty), `last` its most recently appended segment, i.e. the
Python `current[-1]`. -/
def groupLoop (gap : Int) :
    List SleepSegment → SleepSegment → List SleepSegment →
    List (List SleepSegment)
  | cur, _, [] => [cur]
  | cur, last, seg :: rest =>
    if gap < seg.start_dt - last.end_dt then
      cur :: groupLoop gap [seg] seg rest
    else
      groupLoop gap (cur ++ [seg]) seg rest

/-- The groups that `build_sleep_sessions` passes to
`SleepSession.from_segments`, in order. -/
def sessionGroups (segments : List SleepSegment) (gap : Int) :
    List (List SleepSegment) :=
  match segments.filter keepSeg with
  | [] => []
  | s :: rest => groupLoop gap [s] s rest

/-- `build_sleep_sessions`: filter, group by gap, build one session per
group; a `ValueError` from `from_segments` aborts the call. -/
def buildSleepSessions (segments : List SleepSegment) (gap : Int) :
    Except String (List SleepSession) :=
  (sessionGroups segments gap).mapM fromSegments

/-! ## Helper lemmas: sorting and boundaries -/

theorem mem_insertBoundary {x a : Int} {l : List Int} :
    a ∈ insertBoundary x l ↔ a = x ∨ a ∈ l := by
  induction l with
  | nil => simp [insertBoundary]
  | cons y ys ih =>
    simp only [insertBoundary]
    split
    · simp [List.mem_cons]
    · split
      · next hxy =>
        subst hxy
        simp [List.mem_cons]
      · simp [List.mem_cons, ih]
        tauto

theorem mem_dedupSort {a : Int} {l : List Int} :
    a ∈ dedupSort l ↔ a ∈ l := by
  induction l with
  | nil => simp [dedupSort]
  | cons y ys ih =>
    simp only [dedupSort, List.foldr_cons] at *
    rw [mem_insertBoundary, ih, List.mem_cons]

theorem chain'_insertBoundary {x : Int} {l : List Int}
    (h : List.Chain' (· < ·) l) :
    List.Chain' (· < ·) (insertBoundary x l) := by
  induction l with
  | nil => simp [insertBoundary]
  | cons y ys ih =>
    simp only [insertBoundary]
    split
    · next hlt =>
      exact List.Chain'.cons hlt h
    · split
      · exact h
      · next hnlt hne =>
        have hyx : y < x := by omega
        have hys : List.Chain' (· < ·) ys := h.tail
        refine (List.chain'_cons'.mpr ⟨?_, ih hys⟩)
        intro z hz
        have hzmem : z = x ∨ z ∈ ys := by
          rcases ys with _ | ⟨w, ws⟩
          · simp [insertBoundary] at hz
            tauto
          · have : z ∈ insertBoundary x (w :: ws) := List.mem_of_mem_head? hz
            rw [mem_insertBoundary] at this
            exact this
        rcases hzmem with rfl | hzys
        · exact hyx
        · rcases ys with _ | ⟨w, ws⟩
          · simp at hzys
          · rcases List.chain'_cons.mp h with ⟨hyw, _⟩
            have := List.chain'_iff_pairwise.mp h
            rcases List.pairwise_cons.mp this with ⟨hall, _⟩
            exact hall z hzys

theorem dedupSort_sorted (l : List Int) :
    List.Chain' (· < ·) (dedupSort l) := by
  induction l with
  | nil => simp [dedupSort]
  | cons y ys ih => exact chain'_insertBoundary ih

theorem segBoundaries_sorted (segs : List SleepSegment) :
    List.Chain' (· < ·) (segBoundaries segs) :=
  dedupSort_sorted _

theorem mem_segBoundaries {a : Int} {segs : List SleepSegment} :
    a ∈ segBoundaries segs ↔ ∃ s ∈ segs, a = s.start_dt ∨ a = s.end_dt := by
  unfold segBoundaries
  rw [mem_dedupSort]
  simp only [List.mem_flatten, List.mem_map]
  constructor
  · rintro ⟨l, ⟨s, hs, rfl⟩, hmem⟩
    exact ⟨s, hs, by simpa using hmem⟩
  · rintro ⟨s, hs, h⟩
    exact ⟨[s.start_dt, s.end_dt], ⟨s, hs, rfl⟩, by simpa using h⟩

theorem mem_insertSeg {x a : SleepSegment} {l : List SleepSegment} :
    a ∈ insertSeg x l ↔ a = x ∨ a ∈ l := by
  induction l with
  | nil => simp [insertSeg]
  | cons y ys ih =>
    simp only [insertSeg]
    split
    · simp [List.mem_cons]
    · simp [List.mem_cons, ih]
      tauto

theorem mem_sortSegs {a : SleepSegment} {l : List SleepSegment} :
    a ∈ sortSegs l ↔ a ∈ l := by
  induction l with
  | nil => simp [sortSegs]
  | cons y ys ih =>
    simp only [sortSegs, List.foldr_cons] at *
    rw [mem_insertSeg, ih, List.mem_cons]

/-! ## Helper lemmas: elementary intervals -/

theorem mem_elemIntervals {a b : Int} {l : List Int}
    (h : (a, b) ∈ elemIntervals l) : a ∈ l ∧ b ∈ l := by
  induction l with
  | nil => simp [elemIntervals] at h
  | cons x xs ih =>
    cases xs with
    | nil => simp [elemIntervals] at h
    | cons y ys =>
      simp only [elemIntervals, List.mem_cons, Prod.mk.injEq] at h
      rcases h with ⟨rfl, rfl⟩ | h
      · simp
      · have := ih h
        exact ⟨List.mem_cons_of_mem x this.1, List.mem_cons_of_mem x this.2⟩

theorem chain'_lt_head_le {a x : Int} {l : List Int}
    (h : List.Chain' (· < ·) (a :: l)) (hx : x ∈ a :: l) : a ≤ x := by
  have hp := List.chain'_iff_pairwise.mp h
  rcases List.pairwise_cons.mp hp with ⟨hall, _⟩
  rcases List.mem_cons.mp hx with rfl | hx'
  · exact le_refl _
  · exact le_of_lt (hall x hx')

theorem elemIntervals_lt {l : List Int} (h : List.Chain' (· < ·) l) :
    ∀ p ∈ elemIntervals l, p.1 < p.2 := by
  induction l with
  | nil => simp [elemIntervals]
  | cons x xs ih =>
    cases xs with
    | nil => simp [elemIntervals]
    | cons y ys =>
      intro p hp
      simp only [elemIntervals, List.mem_cons] at hp
      rcases hp with rfl | hp
      · exact (List.chain'_cons.mp h).1
      · exact ih h.tail p hp

theorem elemIntervals_exists {l : List Int} (h : List.Chain' (· < ·) l)
    {x y : Int} (hx : x ∈ l) (hy : y ∈ l) (hxy : x < y) :
    ∃ z, (x, z) ∈ elemIntervals l ∧ z ≤ y := by
  induction l with
  | nil => simp at hx
  | cons a as ih =>
    cases as with
    | nil =>
      simp at hx hy
      omega
    | cons b bs =>
      rcases List.mem_cons.mp hx with rfl | hx'
      · refine ⟨b, by simp [elemIntervals], ?_⟩
        have hy' : y ∈ b :: bs := by
          rcases List.mem_cons.mp hy with rfl | hm
          · omega
          · exact hm
        exact chain'_lt_head_le h.tail hy'
      · have hax : a < x := by
          have hp := List.chain'_iff_pairwise.mp h
          rcases List.pairwise_cons.mp hp with ⟨hall, _⟩
          exact hall x hx'
        have hy' : y ∈ b :: bs := by
          rcases List.mem_cons.mp hy with rfl | hm
          · omega
          · exact hm
        obtain ⟨z, hz, hzy⟩ := ih h.tail hx' hy'
        refine ⟨z, ?_, hzy⟩
        simp only [elemIntervals, List.mem_cons]
        right
        exact hz

/-! ## Helper lemmas: winner selection -/

theorem maxByPriority_mem (best : SleepSegment) (l : List SleepSegment) :
    maxByPriority best l ∈ best :: l := by
  induction l generalizing best with
  | nil => simp [maxByPriority]
  | cons s rest ih =>
    simp only [maxByPriority]
    split
    · have := ih s
      simp only [List.mem_cons] at this ⊢
      tauto
    · have := ih best
      simp only [List.mem_cons] at this ⊢
      tauto

theorem maxByPriority_le (best : SleepSegment) (l : List SleepSegment) :
    ∀ t ∈ best :: l,
      stagePriority t.stage ≤ stagePriority (maxByPriority best l).stage := by
  induction l generalizing best with
  | nil =>
    intro t ht
    simp at ht
    simp [maxByPriority, ht]
  | cons s rest ih =>
    intro t ht
    have hmem : t = best ∨ t = s ∨ t ∈ rest := by
      simpa [List.mem_cons] using ht
    simp only [maxByPriority]
    split
    · next hlt =>
      rcases hmem with h1 | h1 | h1
      · rw [h1]
        exact le_of_lt (lt_of_lt_of_le hlt (ih s s (by simp)))
      · rw [h1]
        exact ih s s (by simp)
      · exact ih s t (by simp [h1])
    · next hnlt =>
      rcases hmem with h1 | h1 | h1
      · rw [h1]
        exact ih best best (by simp)
      · rw [h1]
        exact le_trans (not_lt.mp hnlt) (ih best best (by simp))
      · exact ih best t (by simp [h1])

theorem mem_coveringSegs {segs : List SleepSegment} {a b : Int}
    {s : SleepSegment} :
    s ∈ coveringSegs segs a b ↔ s ∈ segs ∧ coversInterval a b s = true := by
  simp [coveringSegs, List.mem_filter]

theorem pickStage_spec {segs : List SleepSegment} {a b : Int} {st : String}
    (h : pickStage segs a b = some st) :
    (∃ s ∈ coveringSegs segs a b, s.stage = st) ∧
    ∀ s ∈ coveringSegs segs a b, stagePriority s.stage ≤ stagePriority st := by
  unfold pickStage at h
  cases hc : coveringSegs segs a b with
  | nil =>
    rw [hc] at h
    simp at h
  | cons c cs =>
    rw [hc] at h
    have hst : (maxByPriority c cs).stage = st := by
      simpa using h
    constructor
    · exact ⟨maxByPriority c cs, maxByPriority_mem c cs, hst⟩
    · intro s hs
      rw [← hst]
      exact maxByPriority_le c cs s hs

/-! ## Helper lemmas: the elementary-interval loop -/

theorem buildResult_mem {segs : List SleepSegment} {ps : List (Int × Int)} :
    ∀ t ∈ buildResult segs ps,
      (t.start_dt, t.end_dt) ∈ ps ∧
      pickStage segs t.start_dt t.end_dt = some t.stage := by
  induction ps with
  | nil => simp [buildResult]
  | cons p rest ih =>
    rcases p with ⟨a, b⟩
    intro t ht
    cases hp : pickStage segs a b with
    | none =>
      rw [buildResult, hp] at ht
      have := ih t ht
      exact ⟨by simp [this.1], this.2⟩
    | some st =>
      rw [buildResult, hp] at ht
      rcases List.mem_cons.mp ht with rfl | ht'
      · exact ⟨by simp, hp⟩
      · have := ih t ht'
        exact ⟨by simp [this.1], this.2⟩

theorem buildResult_chain {segs : List SleepSegment} {B : List Int}
    (h : List.Chain' (· < ·) B) :
    List.Chain' (fun p q : SleepSegment => p.end_dt ≤ q.start_dt)
      (buildResult segs (elemIntervals B)) := by
  induction B with
  | nil => simp [elemIntervals, buildResult]
  | cons a as ih =>
    cases as with
    | nil => simp [elemIntervals, buildResult]
    | cons b bs =>
      simp only [elemIntervals]
      cases hp : pickStage segs a b with
      | none =>
        rw [buildResult, hp]
        exact ih h.tail
      | some st =>
        rw [buildResult, hp]
        refine List.chain'_cons'.mpr ⟨?_, ih h.tail⟩
        intro y hy
        have hym : y ∈ buildResult segs (elemIntervals (b :: bs)) :=
          List.mem_of_mem_head? hy
        have hpair := (buildResult_mem y hym).1
        have hstart : y.start_dt ∈ b :: bs := (mem_elemIntervals hpair).1
        exact chain'_lt_head_le h.tail hstart

theorem buildResult_pos {segs : List SleepSegment} {B : List Int}
    (h : List.Chain' (· < ·) B) :
    ∀ t ∈ buildResult segs (elemIntervals B), t.start_dt < t.end_dt := by
  intro t ht
  have hpair := (buildResult_mem t ht).1
  exact elemIntervals_lt h (t.start_dt, t.end_dt) hpair

theorem buildResult_stage_mem {segs : List SleepSegment}
    {ps : List (Int × Int)} :
    ∀ t ∈ buildResult segs ps, ∃ s ∈ segs, s.stage = t.stage := by
  intro t ht
  have hp := (buildResult_mem t ht).2
  obtain ⟨⟨s, hs, hst⟩, _⟩ := pickStage_spec hp
  exact ⟨s, (mem_coveringSegs.mp hs).1, hst⟩

theorem buildResult_ne_nil {segs : List SleepSegment} {ps : List (Int × Int)}
    {a b : Int} (hab : (a, b) ∈ ps) (hp : pickStage segs a b ≠ none) :
    buildResult segs ps ≠ [] := by
  induction ps with
  | nil => simp at hab
  | cons p rest ih =>
    rcases p with ⟨x, y⟩
    rcases List.mem_cons.mp hab with heq | hmem
    · rcases Prod.mk.injEq .. ▸ heq with ⟨rfl, rfl⟩
      cases hq : pickStage segs a b with
      | none => exact absurd hq hp
      | some st => simp [buildResult, hq]
    · cases hq : pickStage segs x y with
      | none =>
        rw [buildResult, hq]
        exact ih hmem
      | some st => simp [buildResult, hq]

theorem buildResult_congr {segs1 segs2 : List SleepSegment}
    {ps : List (Int × Int)}
    (h : ∀ p ∈ ps, coveringSegs segs1 p.1 p.2 = coveringSegs segs2 p.1 p.2) :
    buildResult segs1 ps = buildResult segs2 ps := by
  induction ps with
  | nil => rfl
  | cons p rest ih =>
    rcases p with ⟨a, b⟩
    have hcov := h (a, b) (by simp)
    have hpick : pickStage segs1 a b = pickStage segs2 a b := by
      unfold pickStage
      rw [hcov]
    have hrest := ih fun q hq => h q (by simp [hq])
    rw [buildResult, buildResult, hpick, hrest]

/-! ## Helper lemmas: the merge loop -/

theorem mergeAdj_ne_nil (p : SleepSegment) (l : List SleepSegment) :
    mergeAdj p l ≠ [] := by
  induction l generalizing p with
  | nil => simp [mergeAdj]
  | cons s rest ih =>
    rw [mergeAdj]
    split
    · exact ih _
    · simp

theorem mergeAdj_head (p : SleepSegment) (l : List SleepSegment) :
    ∃ t ts, mergeAdj p l = t :: ts ∧ t.start_dt = p.start_dt := by
  induction l generalizing p with
  | nil => exact ⟨p, [], rfl, rfl⟩
  | cons s rest ih =>
    rw [mergeAdj]
    split
    · obtain ⟨t, ts, heq, hst⟩ := ih ⟨p.start_dt, s.end_dt, s.stage⟩
      exact ⟨t, ts, heq, hst⟩
    · exact ⟨p, mergeAdj s rest, rfl, rfl⟩

theorem mergeAdj_stages (p : SleepSegment) (l : List SleepSegment) :
    ∀ t ∈ mergeAdj p l, ∃ u ∈ p :: l, u.stage = t.stage := by
  induction l generalizing p with
  | nil =>
    intro t ht
    simp only [mergeAdj, List.mem_singleton] at ht
    exact ⟨p, by simp, by rw [ht]⟩
  | cons s rest ih =>
    intro t ht
    rw [mergeAdj] at ht
    split at ht
    · obtain ⟨u, hu, hust⟩ := ih _ t ht
      rcases List.mem_cons.mp hu with rfl | hu'
      · exact ⟨s, by simp, hust⟩
      · exact ⟨u, by simp [hu'], hust⟩
    · rcases List.mem_cons.mp ht with rfl | ht'
      · exact ⟨t, by simp, rfl⟩
      · obtain ⟨u, hu, hust⟩ := ih s t ht'
        rcases List.mem_cons.mp hu with rfl | hu'
        · exact ⟨u, by simp, hust⟩
        · exact ⟨u, by simp [hu'], hust⟩

theorem mergeAdj_props (p : SleepSegment) (l : List SleepSegment)
    (hp : p.start_dt < p.end_dt)
    (hl : ∀ s ∈ l, s.start_dt < s.end_dt)
    (hc : List.Chain' (fun x y : SleepSegment => x.end_dt ≤ y.start_dt)
      (p :: l)) :
    (∀ t ∈ mergeAdj p l, t.start_dt < t.end_dt) ∧
    List.Chain' (fun x y : SleepSegment => x.end_dt ≤ y.start_dt)
      (mergeAdj p l) := by
  induction l generalizing p with
  | nil =>
    constructor
    · intro t ht
      simp only [mergeAdj, List.mem_singleton] at ht
      rw [ht]
      exact hp
    · simp [mergeAdj]
  | cons s rest ih =>
    have hs : s.start_dt < s.end_dt := hl s (by simp)
    have hps : p.end_dt ≤ s.start_dt := (List.chain'_cons.mp hc).1
    have hcrest : List.Chain'
        (fun x y : SleepSegment => x.end_dt ≤ y.start_dt) (s :: rest) :=
      (List.chain'_cons.mp hc).2
    rw [mergeAdj]
    split
    · next hcond =>
      have hp' : (⟨p.start_dt, s.end_dt, s.stage⟩ : SleepSegment).start_dt <
          (⟨p.start_dt, s.end_dt, s.stage⟩ : SleepSegment).end_dt := by
        simp only
        omega
      refine ih _ hp' (fun u hu => hl u (by simp [hu])) ?_
      refine List.chain'_cons'.mpr ⟨?_, hcrest.tail⟩
      intro y hy
      have := (List.chain'_cons'.mp hcrest).1 y hy
      simpa using this
    · next hcond =>
      obtain ⟨hpos, hchain⟩ :=
        ih s hs (fun u hu => hl u (by simp [hu])) hcrest
      constructor
      · intro t ht
        rcases List.mem_cons.mp ht with rfl | ht'
        · exact hp
        · exact hpos t ht'
      · refine List.chain'_cons'.mpr ⟨?_, hchain⟩
        intro y hy
        obtain ⟨t, ts, heq, hst⟩ := mergeAdj_head s rest
        rw [heq] at hy
        simp only [List.head?_cons, Option.mem_def, Option.some.injEq] at hy
        rw [← hy, hst]
        exact hps

/-! ## Helper lemmas: normalizeSegs -/

theorem normalizeSegs_eq (segs0 : List SleepSegment) :
    normalizeSegs segs0 =
      match buildResult (sortSegs (segs0.filter keepSeg))
          (elemIntervals (segBoundaries (sortSegs (segs0.filter keepSeg)))) with
      | [] => []
      | r :: rs => mergeAdj r rs := by
  unfold normalizeSegs
  cases hf : segs0.filter keepSeg with
  | nil => rfl
  | cons s1 rest1 => rfl

theorem normalizeSegs_props (segs0 : List SleepSegment) :
    (∀ t ∈ normalizeSegs segs0, t.start_dt < t.end_dt ∧
      ∃ s ∈ segs0.filter keepSeg, s.stage = t.stage) ∧
    List.Chain' (fun x y : SleepSegment => x.end_dt ≤ y.start_dt)
      (normalizeSegs segs0) := by
  rw [normalizeSegs_eq]
  have hB := segBoundaries_sorted (sortSegs (segs0.filter keepSeg))
  cases hres : buildResult (sortSegs (segs0.filter keepSeg))
      (elemIntervals (segBoundaries (sortSegs (segs0.filter keepSeg)))) with
  | nil => simp
  | cons r rs =>
    have hpos : ∀ t ∈ r :: rs, t.start_dt < t.end_dt := by
      rw [← hres]
      exact buildResult_pos hB
    have hchain : List.Chain' (fun x y : SleepSegment => x.end_dt ≤ y.start_dt)
        (r :: rs) := by
      rw [← hres]
      exact buildResult_chain hB
    obtain ⟨hmpos, hmchain⟩ := mergeAdj_props r rs (hpos r (by simp))
      (fun u hu => hpos u (by simp [hu])) hchain
    refine ⟨?_, hmchain⟩
    intro t ht
    refine ⟨hmpos t ht, ?_⟩
    obtain ⟨u, hu, hust⟩ := mergeAdj_stages r rs t ht
    rw [← hres] at hu
    obtain ⟨s, hsmem, hsst⟩ := buildResult_stage_mem u hu
    exact ⟨s, mem_sortSegs.mp hsmem, by rw [hsst, hust]⟩

/-! ## Helper lemmas: duration sums -/

theorem sum_filter_partition (l : List SleepSegment) :
    ((l.filter fun s => s.stage != "Awake").map SleepSegment.duration).sum +
    ((l.filter fun s => s.stage == "Awake").map SleepSegment.duration).sum =
    (l.map SleepSegment.duration).sum := by
  induction l with
  | nil => simp
  | cons s rest ih =>
    simp only [bne] at ih ⊢
    cases hb : s.stage == "Awake" <;>
      simp [List.filter_cons, hb, List.map_cons, List.sum_cons] <;>
      omega

theorem chain_sum_le (r : SleepSegment) (rs : List SleepSegment)
    (hpos : ∀ t ∈ r :: rs, t.start_dt < t.end_dt)
    (hc : List.Chain' (fun x y : SleepSegment => x.end_dt ≤ y.start_dt)
      (r :: rs)) :
    ((r :: rs).map SleepSegment.duration).sum ≤
      (List.getLast (r :: rs) (List.cons_ne_nil r rs)).end_dt - r.start_dt := by
  induction rs generalizing r with
  | nil => simp [SleepSegment.duration]
  | cons y ys ih =>
    have h1 := ih y (fun t ht => hpos t (by
      rcases List.mem_cons.mp ht with rfl | h'
      · simp
      · simp [h'])) hc.tail
    have hlast : List.getLast (r :: y :: ys) (List.cons_ne_nil _ _) =
        List.getLast (y :: ys) (List.cons_ne_nil _ _) :=
      List.getLast_cons _
    have hre : r.end_dt ≤ y.start_dt := (List.chain'_cons.mp hc).1
    have hr : r.start_dt < r.end_dt := hpos r (by simp)
    rw [hlast]
    simp only [List.map_cons, List.sum_cons] at h1 ⊢
    simp only [SleepSegment.duration] at h1 ⊢
    omega

/-! ## Helper lemmas: identity of the pipeline on already-normalized input -/

theorem sortSegs_eq_self {l : List SleepSegment}
    (h : List.Chain' (fun x y => segKeyLe x y = true) l) : sortSegs l = l := by
  induction l with
  | nil => rfl
  | cons x xs ih =>
    have hx : sortSegs (x :: xs) = insertSeg x (sortSegs xs) := rfl
    rw [hx, ih h.tail]
    cases xs with
    | nil => rfl
    | cons y ys =>
      have hxy := (List.chain'_cons.mp h).1
      simp [insertSeg, hxy]

theorem ordered_pairwise {l : List SleepSegment}
    (hpos : ∀ s ∈ l, s.start_dt < s.end_dt)
    (hc : List.Chain' (fun x y : SleepSegment => x.end_dt ≤ y.start_dt) l) :
    List.Pairwise (fun x y : SleepSegment => x.end_dt ≤ y.start_dt) l := by
  induction l with
  | nil => simp
  | cons x xs ih =>
    have hxs := ih (fun s hs => hpos s (by simp [hs])) hc.tail
    refine List.pairwise_cons.mpr ⟨?_, hxs⟩
    intro y hy
    cases xs with
    | nil => simp at hy
    | cons z zs =>
      have hxz : x.end_dt ≤ z.start_dt := (List.chain'_cons.mp hc).1
      rcases List.mem_cons.mp hy with rfl | hy'
      · exact hxz
      · have hz : z.end_dt ≤ y.start_dt := (List.pairwise_cons.mp hxs).1 y hy'
        have hzpos := hpos z (by simp)
        omega

theorem sorted_head_of_min {l : List Int} {a : Int}
    (hs : List.Chain' (· < ·) l) (ha : a ∈ l) (hmin : ∀ z ∈ l, a ≤ z) :
    l.head? = some a := by
  cases l with
  | nil => simp at ha
  | cons h t =>
    have h1 : a ≤ h := hmin h (by simp)
    rcases List.mem_cons.mp ha with rfl | ha'
    · rfl
    · have h2 : h < a := by
        have hp := List.chain'_iff_pairwise.mp hs
        exact (List.pairwise_cons.mp hp).1 a ha'
      exact absurd h1 (not_le.mpr h2)

theorem segBoundaries_cons (x : SleepSegment) (rest : List SleepSegment) :
    segBoundaries (x :: rest) =
      insertBoundary x.start_dt (insertBoundary x.end_dt
        (segBoundaries rest)) := rfl

theorem mergeAdj_id (p : SleepSegment) (l : List SleepSegment)
    (h : List.Chain' (fun x y : SleepSegment =>
      ¬(y.stage = x.stage ∧ y.start_dt = x.end_dt)) (p :: l)) :
    mergeAdj p l = p :: l := by
  induction l generalizing p with
  | nil => rfl
  | cons s rest ih =>
    rw [mergeAdj]
    rw [if_neg ((List.chain'_cons.mp h).1)]
    rw [ih s (List.chain'_cons.mp h).2]

theorem coveringSegs_cons_of_not {x : SleepSegment} {segs : List SleepSegment}
    {a b : Int} (h : coversInterval a b x = false) :
    coveringSegs (x :: segs) a b = coveringSegs segs a b := by
  simp [coveringSegs, List.filter_cons, h]

theorem buildResult_of_chain (l : List SleepSegment)
    (hpos : ∀ s ∈ l, s.start_dt < s.end_dt)
    (hc : List.Chain' (fun x y : SleepSegment => x.end_dt ≤ y.start_dt) l) :
    buildResult l (elemIntervals (segBoundaries l)) = l := by
  induction l with
  | nil => rfl
  | cons x rest ih =>
    have hx : x.start_dt < x.end_dt := hpos x (by simp)
    cases rest with
    | nil =>
      have hb : segBoundaries [x] = [x.start_dt, x.end_dt] := by
        rw [segBoundaries_cons]
        show insertBoundary x.start_dt (insertBoundary x.end_dt []) = _
        simp [insertBoundary, hx]
      rw [hb]
      have hcov : coveringSegs [x] x.start_dt x.end_dt = [x] := by
        simp [coveringSegs, List.filter, coversInterval, hx]
      have hpk : pickStage [x] x.start_dt x.end_dt = some x.stage := by
        unfold pickStage
        rw [hcov]
        rfl
      show buildResult [x] [(x.start_dt, x.end_dt)] = [x]
      simp [buildResult, hpk]
    | cons y rest' =>
      have hposr : ∀ s ∈ y :: rest', s.start_dt < s.end_dt :=
        fun s hs => hpos s (by simp [hs])
      have hcr : List.Chain'
          (fun a b : SleepSegment => a.end_dt ≤ b.start_dt) (y :: rest') :=
        hc.tail
      have hIH := ih hposr hcr
      have hxy : x.end_dt ≤ y.start_dt := (List.chain'_cons.mp hc).1
      have hyrest_start : ∀ s ∈ y :: rest', y.start_dt ≤ s.start_dt := by
        intro s hs
        rcases List.mem_cons.mp hs with rfl | hs'
        · exact le_refl _
        · have hpwr := ordered_pairwise hposr hcr
          have h1 := (List.pairwise_cons.mp hpwr).1 s hs'
          have hy := hposr y (by simp)
          omega
      have hmin : ∀ z ∈ segBoundaries (y :: rest'), y.start_dt ≤ z := by
        intro z hz
        rw [mem_segBoundaries] at hz
        obtain ⟨s, hs, hzeq⟩ := hz
        have hspos := hposr s hs
        have hsst := hyrest_start s hs
        rcases hzeq with rfl | rfl <;> omega
      have hBsorted : List.Chain' (· < ·) (segBoundaries (y :: rest')) :=
        segBoundaries_sorted _
      have hymem : y.start_dt ∈ segBoundaries (y :: rest') := by
        rw [mem_segBoundaries]
        exact ⟨y, by simp, Or.inl rfl⟩
      obtain ⟨B'', hB''⟩ : ∃ B'',
          segBoundaries (y :: rest') = y.start_dt :: B'' := by
        have hhead := sorted_head_of_min hBsorted hymem hmin
        cases hBe : segBoundaries (y :: rest') with
        | nil =>
          rw [hBe] at hhead
          simp at hhead
        | cons h t =>
          rw [hBe] at hhead
          simp only [List.head?_cons, Option.some.injEq] at hhead
          exact ⟨t, by rw [hhead]⟩
      -- The first elementary interval is exactly [x.start, x.end) and is
      -- covered by x alone.
      have hcov1 : coveringSegs (x :: y :: rest') x.start_dt x.end_dt = [x] := by
        have h1 : coversInterval x.start_dt x.end_dt x = true := by
          simp [coversInterval]
          omega
        have h2 : ∀ s ∈ y :: rest',
            coversInterval x.start_dt x.end_dt s = false := by
          intro s hs
          have h3 := hyrest_start s hs
          simp [coversInterval]
          omega
        unfold coveringSegs
        rw [List.filter_cons, if_pos h1]
        have : List.filter (coversInterval x.start_dt x.end_dt)
            (y :: rest') = [] := by
          rw [List.filter_eq_nil_iff]
          intro s hs
          simp [h2 s hs]
        rw [this]
      have hpick1 : pickStage (x :: y :: rest') x.start_dt x.end_dt =
          some x.stage := by
        unfold pickStage
        rw [hcov1]
        rfl
      -- Any elementary interval at or after x.end is not covered by x.
      have hxnot : ∀ a b : Int, x.end_dt ≤ a →
          coversInterval a b x = false := by
        intro a b hab
        simp [coversInterval]
        omega
      by_cases hadj : x.end_dt = y.start_dt
      · -- adjacent: x.end coincides with the first boundary of the rest
        have hbx : segBoundaries (x :: y :: rest') =
            x.start_dt :: segBoundaries (y :: rest') := by
          rw [segBoundaries_cons, hB'']
          have e1 : insertBoundary x.end_dt (y.start_dt :: B'') =
              y.start_dt :: B'' := by
            simp only [insertBoundary]
            rw [if_neg (by omega), if_pos hadj]
          rw [e1]
          simp only [insertBoundary]
          rw [if_pos (by omega)]
        rw [hbx, hB'']
        show buildResult (x :: y :: rest')
            ((x.start_dt, y.start_dt) :: elemIntervals (y.start_dt :: B'')) =
          x :: y :: rest'
        rw [← hadj]
        simp only [buildResult, hpick1]
        have hdrop : buildResult (x :: y :: rest')
            (elemIntervals (x.end_dt :: B'')) =
            buildResult (y :: rest') (elemIntervals (x.end_dt :: B'')) := by
          apply buildResult_congr
          intro p hp
          have hsorted2 : List.Chain' (· < ·) (x.end_dt :: B'') := by
            rw [hadj, ← hB'']
            exact hBsorted
          have hpa : p.1 ∈ x.end_dt :: B'' := (mem_elemIntervals hp).1
          have hge : x.end_dt ≤ p.1 := chain'_lt_head_le hsorted2 hpa
          exact coveringSegs_cons_of_not (hxnot p.1 p.2 hge)
        rw [hdrop]
        have : elemIntervals (x.end_dt :: B'') =
            elemIntervals (segBoundaries (y :: rest')) := by
          rw [hB'', hadj]
        rw [this, hIH]
      · -- gap: x.end strictly precedes the first boundary of the rest
        have hgap : x.end_dt < y.start_dt := lt_of_le_of_ne hxy hadj
        have hbx : segBoundaries (x :: y :: rest') =
            x.start_dt :: x.end_dt :: segBoundaries (y :: rest') := by
          rw [segBoundaries_cons, hB'']
          have e1 : insertBoundary x.end_dt (y.start_dt :: B'') =
              x.end_dt :: y.start_dt :: B'' := by
            simp only [insertBoundary]
            rw [if_pos hgap]
          rw [e1]
          simp only [insertBoundary]
          rw [if_pos (by omega)]
        rw [hbx, hB'']
        show buildResult (x :: y :: rest')
            ((x.start_dt, x.end_dt) :: (x.end_dt, y.start_dt) ::
              elemIntervals (y.start_dt :: B'')) = x :: y :: rest'
        simp only [buildResult, hpick1]
        -- the gap pair is covered by nothing
        have hpick2 : pickStage (x :: y :: rest') x.end_dt y.start_dt =
            none := by
          unfold pickStage
          have : coveringSegs (x :: y :: rest') x.end_dt y.start_dt = [] := by
            unfold coveringSegs
            rw [List.filter_eq_nil_iff]
            intro s hs
            rcases List.mem_cons.mp hs with rfl | hs'
            · simp [coversInterval]
            · have h3 := hyrest_start s hs'
              simp [coversInterval]
              omega
          rw [this]
        rw [hpick2]
        have hdrop : buildResult (x :: y :: rest')
            (elemIntervals (y.start_dt :: B'')) =
            buildResult (y :: rest') (elemIntervals (y.start_dt :: B'')) := by
          apply buildResult_congr
          intro p hp
          have hsorted2 : List.Chain' (· < ·) (y.start_dt :: B'') := by
            rw [← hB'']
            exact hBsorted
          have hpa : p.1 ∈ y.start_dt :: B'' := (mem_elemIntervals hp).1
          have hge : y.start_dt ≤ p.1 := chain'_lt_head_le hsorted2 hpa
          exact coveringSegs_cons_of_not (hxnot p.1 p.2 (by omega))
        rw [hdrop]
        have : elemIntervals (y.start_dt :: B'') =
            elemIntervals (segBoundaries (y :: rest')) := by
          rw [hB'']
        rw [this, hIH]

/-! ## Helper lemmas: the session grouper -/

theorem groupLoop_flatten (gap : Int) (cur : List SleepSegment)
    (last : SleepSegment) (rest : List SleepSegment) :
    (groupLoop gap cur last rest).flatten = cur ++ rest := by
  induction rest generalizing cur last with
  | nil => simp [groupLoop]
  | cons seg rest' ih =>
    rw [groupLoop]
    split
    · simp [ih]
    · rw [ih]
      simp

theorem groupLoop_ne_nil (gap : Int) (cur : List SleepSegment)
    (last : SleepSegment) (rest : List SleepSegment) (hcur : cur ≠ []) :
    ∀ g ∈ groupLoop gap cur last rest, g ≠ [] := by
  induction rest generalizing cur last with
  | nil =>
    intro g hg
    simp only [groupLoop, List.mem_singleton] at hg
    rw [hg]
    exact hcur
  | cons seg rest' ih =>
    intro g hg
    rw [groupLoop] at hg
    split at hg
    · rcases List.mem_cons.mp hg with rfl | hg'
      · exact hcur
      · exact ih [seg] seg (by simp) g hg'
    · exact ih (cur ++ [seg]) seg (by simp) g hg

theorem groupLoop_first (gap : Int) (cur : List SleepSegment)
    (last : SleepSegment) (rest : List SleepSegment) :
    ∃ t gs, groupLoop gap cur last rest = (cur ++ t) :: gs := by
  induction rest generalizing cur last with
  | nil => exact ⟨[], [], by simp [groupLoop]⟩
  | cons seg rest' ih =>
    rw [groupLoop]
    split
    · exact ⟨[], groupLoop gap [seg] seg rest', by simp⟩
    · obtain ⟨t, gs, heq⟩ := ih (cur ++ [seg]) seg
      exact ⟨[seg] ++ t, gs, by rw [heq]; simp⟩

theorem groupLoop_within (gap : Int) (cur : List SleepSegment)
    (last : SleepSegment) (rest : List SleepSegment)
    (hlast : cur.getLast? = some last)
    (hchain : List.Chain' (fun p q : SleepSegment =>
      q.start_dt - p.end_dt ≤ gap) cur) :
    ∀ g ∈ groupLoop gap cur last rest,
      List.Chain' (fun p q : SleepSegment =>
        q.start_dt - p.end_dt ≤ gap) g := by
  induction rest generalizing cur last with
  | nil =>
    intro g hg
    simp only [groupLoop, List.mem_singleton] at hg
    rw [hg]
    exact hchain
  | cons seg rest' ih =>
    intro g hg
    rw [groupLoop] at hg
    split at hg
    · rcases List.mem_cons.mp hg with rfl | hg'
      · exact hchain
      · exact ih [seg] seg (by simp) (by simp) g hg'
    · next hcond =>
      refine ih (cur ++ [seg]) seg (by simp) ?_ g hg
      refine List.chain'_append.mpr ⟨hchain, by simp, ?_⟩
      intro p hp q hq
      simp only [List.head?_cons, Option.mem_def, Option.some.injEq] at hq
      rw [hlast] at hp
      simp only [Option.mem_def, Option.some.injEq] at hp
      rw [← hq, ← hp]
      omega

theorem groupLoop_between (gap : Int) (cur : List SleepSegment)
    (last : SleepSegment) (rest : List SleepSegment)
    (hlast : cur.getLast? = some last) :
    List.Chain' (fun g h : List SleepSegment =>
      ∀ p q, g.getLast? = some p → h.head? = some q →
        gap < q.start_dt - p.end_dt)
      (groupLoop gap cur last rest) := by
  induction rest generalizing cur last with
  | nil => simp [groupLoop]
  | cons seg rest' ih =>
    rw [groupLoop]
    split
    · next hcond =>
      refine List.chain'_cons'.mpr ⟨?_, ih [seg] seg (by simp)⟩
      intro h hh p q hp hq
      obtain ⟨t, gs, heq⟩ := groupLoop_first gap [seg] seg rest'
      rw [heq] at hh
      simp only [List.head?_cons, Option.mem_def, Option.some.injEq] at hh
      rw [← hh] at hq
      simp only [List.singleton_append, List.head?_cons,
        Option.some.injEq] at hq
      rw [hlast] at hp
      simp only [Option.some.injEq] at hp
      rw [← hq, ← hp]
      exact hcond
    · exact ih (cur ++ [seg]) seg (by simp)

/-! ## Helper lemmas: non-empty normalization -/

theorem normalizeSegs_ne_nil {l : List SleepSegment} (hne : l ≠ [])
    (hall : ∀ s ∈ l, keepSeg s = true) : normalizeSegs l ≠ [] := by
  have hfil : l.filter keepSeg = l := List.filter_eq_self.mpr hall
  rw [normalizeSegs_eq, hfil]
  obtain ⟨t, ht⟩ : ∃ t, t ∈ l := List.exists_mem_of_ne_nil l hne
  have hts : t ∈ sortSegs l := mem_sortSegs.mpr ht
  have htk := hall t ht
  have hpos : t.start_dt < t.end_dt := by
    simp [keepSeg, SleepSegment.duration] at htk
    omega
  have hB := segBoundaries_sorted (sortSegs l)
  have hsmem : t.start_dt ∈ segBoundaries (sortSegs l) :=
    mem_segBoundaries.mpr ⟨t, hts, Or.inl rfl⟩
  have hemem : t.end_dt ∈ segBoundaries (sortSegs l) :=
    mem_segBoundaries.mpr ⟨t, hts, Or.inr rfl⟩
  obtain ⟨z, hz, hzle⟩ := elemIntervals_exists hB hsmem hemem hpos
  have hzgt : t.start_dt < z := elemIntervals_lt hB _ hz
  have hcov : t ∈ coveringSegs (sortSegs l) t.start_dt z := by
    rw [mem_coveringSegs]
    refine ⟨hts, ?_⟩
    simp [coversInterval]
    omega
  have hpick : pickStage (sortSegs l) t.start_dt z ≠ none := by
    unfold pickStage
    cases hcc : coveringSegs (sortSegs l) t.start_dt z with
    | nil =>
      rw [hcc] at hcov
      simp at hcov
    | cons c cs => simp
  have hne2 := buildResult_ne_nil hz hpick
  cases hres : buildResult (sortSegs l)
      (elemIntervals (segBoundaries (sortSegs l))) with
  | nil => exact absurd hres hne2
  | cons r rs =>
    simp only
    exact mergeAdj_ne_nil r rs

theorem mapM_isOk {α β : Type} (f : α → Except String β) (l : List α)
    (h : ∀ x ∈ l, ∃ y, f x = .ok y) : ∃ ys, l.mapM f = .ok ys := by
  induction l with
  | nil => exact ⟨[], rfl⟩
  | cons x xs ih =>
    obtain ⟨y, hy⟩ := h x (by simp)
    obtain ⟨ys, hys⟩ := ih (fun z hz => h z (by simp [hz]))
    refine ⟨y :: ys, ?_⟩
    rw [List.mapM_cons, hy, hys]
    rfl

/-! ## Intermediate results used by the claim theorems -/

theorem fromSegments_ok {segs : List SleepSegment} {ss : SleepSession}
    (h : fromSegments segs = .ok ss) :
    ∃ r rs, normalizeSegs segs = r :: rs ∧
      ss = ⟨r.start_dt,
        (List.getLast (r :: rs) (List.cons_ne_nil r rs)).end_dt, r :: rs⟩ := by
  unfold fromSegments at h
  cases hn : normalizeSegs segs with
  | nil =>
    rw [hn] at h
    exact absurd h (by simp)
  | cons r rs =>
    rw [hn] at h
    exact ⟨r, rs, rfl, (Except.ok.inj h).symm⟩

theorem chain_segKeyLe {l : List SleepSegment}
    (hpos : ∀ s ∈ l, s.start_dt < s.end_dt)
    (hord : List.Chain' (fun x y : SleepSegment => x.end_dt ≤ y.start_dt) l) :
    List.Chain' (fun x y => segKeyLe x y = true) l := by
  induction l with
  | nil => simp
  | cons x xs ih =>
    cases xs with
    | nil => simp
    | cons y ys =>
      refine List.chain'_cons.mpr
        ⟨?_, ih (fun s hs => hpos s (by simp [hs])) hord.tail⟩
      have h1 := (List.chain'_cons.mp hord).1
      have h2 := hpos x (by simp)
      simp [segKeyLe]
      omega

/-! ## Claim theorems -/

/-- C3, counterexample: a zero-length segment (end = start) is accepted by
`SleepSegment.__post_init__` — construction does NOT fail when the end
instant merely equals the start instant, contrary to the claim. -/
theorem c3_zero_length_counterexample :
    mkSleepSegment 0 0 "Asleep" = .ok ⟨0, 0, "Asleep"⟩ := rfl

/-- C3 (amended): `SleepSegment` construction succeeds exactly when
`start_dt ≤ end_dt` (so zero-length segments are accepted; they are
filtered downstream) and the stage is in the enumerated set; it raises
otherwise, and an accepted segment stores the inputs without coercion. -/
theorem c3_segment_construction (s e : Int) (st : String) :
    ((∃ seg, mkSleepSegment s e st = .ok seg) ↔
      s ≤ e ∧ st ∈ sleepStageValues) ∧
    (∀ seg, mkSleepSegment s e st = .ok seg → seg = ⟨s, e, st⟩) := by
  unfold mkSleepSegment
  by_cases h1 : e < s
  · rw [if_pos h1]
    constructor
    · constructor
      · rintro ⟨seg, hseg⟩
        exact absurd hseg (by simp)
      · rintro ⟨hle, _⟩
        exact absurd hle (by omega)
    · intro seg hseg
      exact absurd hseg (by simp)
  · rw [if_neg h1]
    by_cases h2 : st ∈ sleepStageValues
    · rw [if_neg (by simpa using h2)]
      constructor
      · exact ⟨fun _ => ⟨by omega, h2⟩, fun _ => ⟨⟨s, e, st⟩, rfl⟩⟩
      · intro seg hseg
        exact (Except.ok.inj hseg).symm
    · rw [if_pos (by simpa using h2)]
      constructor
      · constructor
        · rintro ⟨seg, hseg⟩
          exact absurd hseg (by simp)
        · rintro ⟨_, hmem⟩
          exact absurd hmem h2
      · intro seg hseg
        exact absurd hseg (by simp)

/-- Witness for C3 at a concrete accepted input. -/
theorem c3_witness :
    (∃ seg, mkSleepSegment 0 60 "Awake" = .ok seg) ∧
    (∀ seg, mkSleepSegment 0 60 "Awake" = .ok seg → seg = ⟨0, 60, "Awake"⟩) :=
  ⟨(c3_segment_construction 0 60 "Awake").1.mpr (by decide),
   (c3_segment_construction 0 60 "Awake").2⟩

/-- C2, counterexample: `from_segments` can produce a session whose two
consecutive segments are separated by uncovered time, so the segment
sequence does not cover `[start_instant, end_instant)` with no gaps. -/
theorem c2_gap_counterexample :
    ∃ ss, fromSegments [⟨0, 3600, "Asleep"⟩, ⟨7200, 10800, "Asleep"⟩] =
        .ok ss ∧
      ∃ p q, ss.segments = [p, q] ∧ p.end_dt < q.start_dt := by
  refine ⟨⟨0, 10800, [⟨0, 3600, "Asleep"⟩, ⟨7200, 10800, "Asleep"⟩]⟩, rfl,
    ⟨0, 3600, "Asleep"⟩, ⟨7200, 10800, "Asleep"⟩, rfl, by decide⟩

/-- C2 (amended): every session built by `SleepSession.from_segments`
(hence every session the grouper produces) has a non-empty, time-ordered,
pairwise-disjoint segment list of positive-length, non-InBed segments with
stages from the enumerated set, and `start_dt`/`end_dt` equal the first
segment's start and the last segment's end; consecutive segments may,
however, be separated by gaps (intervals covered by no input segment). -/
theorem c2_session_invariants (segs : List SleepSegment)
    (hstages : ∀ s ∈ segs, s.stage ∈ sleepStageValues) :
    ∀ ss, fromSegments segs = .ok ss →
      ss.segments ≠ [] ∧
      (∀ t ∈ ss.segments, t.start_dt < t.end_dt ∧ t.stage ≠ "InBed" ∧
        t.stage ∈ sleepStageValues) ∧
      List.Chain' (fun p q : SleepSegment => p.end_dt ≤ q.start_dt)
        ss.segments ∧
      (∃ r rs, ss.segments = r :: rs ∧ ss.start_dt = r.start_dt ∧
        ss.end_dt =
          (List.getLast (r :: rs) (List.cons_ne_nil r rs)).end_dt) := by
  intro ss h
  obtain ⟨r, rs, hn, rfl⟩ := fromSegments_ok h
  obtain ⟨hforall, hchain⟩ := normalizeSegs_props segs
  rw [hn] at hforall hchain
  refine ⟨by simp, ?_, hchain, r, rs, rfl, rfl, rfl⟩
  intro t ht
  obtain ⟨hpos, s, hsf, hst⟩ := hforall t ht
  have hsk := List.mem_filter.mp hsf
  have hkeep : s.stage ≠ "InBed" := by
    have := hsk.2
    simp [keepSeg] at this
    exact this.1
  exact ⟨hpos, by rw [← hst]; exact hkeep,
    by rw [← hst]; exact hstages s hsk.1⟩

/-- Witness for C2 at a concrete input. -/
theorem c2_witness :
    ∃ ss, fromSegments [⟨0, 60, "Asleep"⟩] = .ok ss ∧ ss.segments ≠ [] := by
  refine ⟨⟨0, 60, [⟨0, 60, "Asleep"⟩]⟩, rfl, ?_⟩
  exact (c2_session_invariants [⟨0, 60, "Asleep"⟩] (by decide) _ rfl).1

/-- C9: for every session produced by `from_segments`, the asleep and
awake durations sum to at most the session duration. -/
theorem c9_duration_bound (segs : List SleepSegment) (ss : SleepSession)
    (h : fromSegments segs = .ok ss) :
    ss.asleep_duration + ss.awake_duration ≤ ss.duration := by
  obtain ⟨r, rs, hn, rfl⟩ := fromSegments_ok h
  obtain ⟨hforall, hchain⟩ := normalizeSegs_props segs
  rw [hn] at hforall hchain
  have hpos : ∀ t ∈ r :: rs, t.start_dt < t.end_dt :=
    fun t ht => (hforall t ht).1
  have hsum := chain_sum_le r rs hpos hchain
  have hpart := sum_filter_partition (r :: rs)
  unfold SleepSession.asleep_duration SleepSession.awake_duration
    SleepSession.duration
  simp only at hsum hpart ⊢
  omega

/-- Witness for C9 at a concrete input. -/
theorem c9_witness :
    ∃ ss, fromSegments [⟨0, 60, "Awake"⟩] = .ok ss ∧
      ss.asleep_duration + ss.awake_duration ≤ ss.duration :=
  ⟨⟨0, 60, [⟨0, 60, "Awake"⟩]⟩, rfl,
    c9_duration_bound [⟨0, 60, "Awake"⟩] ⟨0, 60, [⟨0, 60, "Awake"⟩]⟩ rfl⟩

/-- C10: `build_sleep_sessions` never hits the empty-session error of
`from_segments`: it always returns a result list; when every input
segment is InBed or zero-duration it returns the empty list; and every
group handed to `from_segments` is non-empty, consists of kept segments
only, and therefore builds a session successfully. -/
theorem c10_grouper_total (segments : List SleepSegment) (gap : Int) :
    (∀ g ∈ sessionGroups segments gap, g ≠ [] ∧
      (∀ u ∈ g, keepSeg u = true) ∧ ∃ y, fromSegments g = .ok y) ∧
    (∃ l, buildSleepSessions segments gap = .ok l) ∧
    ((∀ s ∈ segments, keepSeg s = false) →
      buildSleepSessions segments gap = .ok []) := by
  have hmain : ∀ g ∈ sessionGroups segments gap, g ≠ [] ∧
      (∀ u ∈ g, keepSeg u = true) ∧ ∃ y, fromSegments g = .ok y := by
    intro g hg
    unfold sessionGroups at hg
    cases hf : segments.filter keepSeg with
    | nil =>
      rw [hf] at hg
      simp at hg
    | cons s rest =>
      rw [hf] at hg
      have hgne : g ≠ [] := groupLoop_ne_nil gap [s] s rest (by simp) g hg
      have hsub : ∀ u ∈ g, u ∈ segments.filter keepSeg := by
        intro u hu
        rw [hf]
        have hmem : u ∈ (groupLoop gap [s] s rest).flatten :=
          List.mem_flatten.mpr ⟨g, hg, hu⟩
        rw [groupLoop_flatten] at hmem
        simpa using hmem
      have hkeep : ∀ u ∈ g, keepSeg u = true :=
        fun u hu => (List.mem_filter.mp (hsub u hu)).2
      have hne := normalizeSegs_ne_nil hgne hkeep
      refine ⟨hgne, hkeep, ?_⟩
      unfold fromSegments
      cases hn : normalizeSegs g with
      | nil => exact absurd hn hne
      | cons r rs => exact ⟨_, rfl⟩
  refine ⟨hmain, ?_, ?_⟩
  · unfold buildSleepSessions
    exact mapM_isOk _ _ fun g hg => (hmain g hg).2.2
  · intro hall
    have hf : segments.filter keepSeg = [] := by
      rw [List.filter_eq_nil_iff]
      intro s hs
      simp [hall s hs]
    unfold buildSleepSessions sessionGroups
    rw [hf]
    rfl

/-- Witness for C10 at a concrete all-InBed input. -/
theorem c10_witness :
    buildSleepSessions [⟨0, 60, "InBed"⟩] 10 = .ok [] :=
  (c10_grouper_total [⟨0, 60, "InBed"⟩] 10).2.2 (by decide)

/-- The gap-grouping example of the spec: a segment ending at 23:00 and a
segment starting at 02:00 the next day (epoch seconds, day 0). -/
def gapExampleSegs : List SleepSegment :=
  [⟨79200, 82800, "Asleep"⟩, ⟨93600, 97200, "Asleep"⟩]

/-- C4: the grouper partitions the kept segments in order into non-empty
groups; inside a group each segment starts within `gap` of the previously
appended segment's end, and a new group starts exactly when the incoming
segment's start exceeds the previous group's last end by more than `gap`;
the final group is flushed.  On the spec's example (23:00 end, 02:00 next
day start) a 2-hour gap yields two sessions and a 4-hour gap one. -/
theorem c4_session_grouper (segments : List SleepSegment) (gap : Int) :
    ((sessionGroups segments gap).flatten = segments.filter keepSeg) ∧
    (∀ g ∈ sessionGroups segments gap, g ≠ []) ∧
    (∀ g ∈ sessionGroups segments gap,
      List.Chain' (fun p q : SleepSegment => q.start_dt - p.end_dt ≤ gap) g) ∧
    List.Chain' (fun g h : List SleepSegment =>
      ∀ p q, g.getLast? = some p → h.head? = some q →
        gap < q.start_dt - p.end_dt) (sessionGroups segments gap) ∧
    (buildSleepSessions gapExampleSegs 7200).map List.length = .ok 2 ∧
    (buildSleepSessions gapExampleSegs 14400).map List.length = .ok 1 := by
  have hex1 : (buildSleepSessions gapExampleSegs 7200).map List.length =
      .ok 2 := rfl
  have hex2 : (buildSleepSessions gapExampleSegs 14400).map List.length =
      .ok 1 := rfl
  unfold sessionGroups
  cases hf : segments.filter keepSeg with
  | nil => exact ⟨by simp, by simp, by simp, by simp, hex1, hex2⟩
  | cons s rest =>
    refine ⟨?_, ?_, ?_, ?_, hex1, hex2⟩
    · rw [groupLoop_flatten]
      simp
    · exact groupLoop_ne_nil gap [s] s rest (by simp)
    · exact groupLoop_within gap [s] s rest (by simp) (by simp)
    · exact groupLoop_between gap [s] s rest (by simp)

/-- Witness for C4 at the spec's example input. -/
theorem c4_witness :
    (sessionGroups gapExampleSegs 7200).flatten =
      gapExampleSegs.filter keepSeg ∧
    ∀ g ∈ sessionGroups gapExampleSegs 7200, g ≠ [] :=
  ⟨(c4_session_grouper gapExampleSegs 7200).1,
   (c4_session_grouper gapExampleSegs 7200).2.1⟩

/-- C6: the normalizer is the identity on any segment list that is
already time-ordered, pairwise disjoint, free of InBed and zero-duration
segments, and has no two consecutive segments that share a stage while
being exactly adjacent. -/
theorem c6_normalize_idempotent (l : List SleepSegment)
    (hkeep : ∀ s ∈ l, s.stage ≠ "InBed" ∧ s.start_dt < s.end_dt)
    (hord : List.Chain' (fun x y : SleepSegment => x.end_dt ≤ y.start_dt) l)
    (hmerged : List.Chain' (fun x y : SleepSegment =>
      ¬(y.stage = x.stage ∧ y.start_dt = x.end_dt)) l) :
    normalizeSegs l = l := by
  have hpos : ∀ s ∈ l, s.start_dt < s.end_dt := fun s hs => (hkeep s hs).2
  have hall : ∀ s ∈ l, keepSeg s = true := by
    intro s hs
    have h := hkeep s hs
    simp only [keepSeg, SleepSegment.duration, decide_eq_true_eq]
    exact ⟨h.1, by omega⟩
  have hfil : l.filter keepSeg = l := List.filter_eq_self.mpr hall
  rw [normalizeSegs_eq, hfil, sortSegs_eq_self (chain_segKeyLe hpos hord),
    buildResult_of_chain l hpos hord]
  cases l with
  | nil => rfl
  | cons r rs => exact mergeAdj_id r rs hmerged

/-- Witness for C6 at a concrete already-normalized input. -/
theorem c6_witness :
    normalizeSegs [⟨0, 60, "Core"⟩, ⟨60, 120, "REM"⟩] =
      [⟨0, 60, "Core"⟩, ⟨60, 120, "REM"⟩] :=
  c6_normalize_idempotent [⟨0, 60, "Core"⟩, ⟨60, 120, "REM"⟩]
    (by decide) (by simp [List.chain'_cons]) (by simp [List.chain'_cons])

/-- C7: on every elementary interval the normalizer's winner is a stage of
one of the covering segments attaining the maximal priority under the
fixed order Awake(5) > REM(4) > Deep(3) > Core(2) > Asleep(1) >
Unspecified(0); and the spec's overlap example Core[00:00,02:00) with
Awake[00:30,01:30) normalizes to exactly Core, Awake, Core. -/
theorem c7_overlap_resolution :
    (∀ (segs : List SleepSegment) (a b : Int) (st : String),
      pickStage segs a b = some st →
        (∃ s ∈ coveringSegs segs a b, s.stage = st) ∧
        ∀ s ∈ coveringSegs segs a b,
          stagePriority s.stage ≤ stagePriority st) ∧
    stagePriority "Awake" = 5 ∧ stagePriority "REM" = 4 ∧
    stagePriority "Deep" = 3 ∧ stagePriority "Core" = 2 ∧
    stagePriority "Asleep" = 1 ∧ stagePriority "Unspecified" = 0 ∧
    normalizeSegs [⟨0, 7200, "Core"⟩, ⟨1800, 5400, "Awake"⟩] =
      [⟨0, 1800, "Core"⟩, ⟨1800, 5400, "Awake"⟩, ⟨5400, 7200, "Core"⟩] :=
  ⟨fun _ _ _ _ h => pickStage_spec h, rfl, rfl, rfl, rfl, rfl, rfl, rfl⟩

/-- Witness for C7 at the example's overlapped interval. -/
theorem c7_witness :
    (∃ s ∈ coveringSegs [⟨0, 7200, "Core"⟩, ⟨1800, 5400, "Awake"⟩] 1800 5400,
      s.stage = "Awake") ∧
    ∀ s ∈ coveringSegs [⟨0, 7200, "Core"⟩, ⟨1800, 5400, "Awake"⟩] 1800 5400,
      stagePriority s.stage ≤ stagePriority "Awake" :=
  c7_overlap_resolution.1 [⟨0, 7200, "Core"⟩, ⟨1800, 5400, "Awake"⟩]
    1800 5400 "Awake" rfl

/-! ## Part B: parser.py

Timestamps are parsed down to an absolute UTC instant (`Int` epoch
seconds).  The embedded parsers cover the formats the code's four
branches accept (fractional seconds are not modelled; no claim exercises
them). -/

/-- Numeric value of a decimal digit. -/
def digitVal (c : Char) : Option Nat :=
  if c.isDigit then some (c.toNat - 48) else none

/-- Exactly two digits. -/
def take2 : List Char → Option (Nat × List Char)
  | c1 :: c2 :: rest =>
    match digitVal c1, digitVal c2 with
    | some d1, some d2 => some (d1 * 10 + d2, rest)
    | _, _ => none
  | _ => none

/-- Exactly four digits (the strptime `%Y` field). -/
def take4 : List Char → Option (Nat × List Char)
  | c1 :: c2 :: c3 :: c4 :: rest =>
    match digitVal c1, digitVal c2, digitVal c3, digitVal c4 with
    | some d1, some d2, some d3, some d4 =>
      some (((d1 * 10 + d2) * 10 + d3) * 10 + d4, rest)
    | _, _, _, _ => none
  | _ => none

/-- One or two digits, greedily (the strptime `%m`/`%d`/`%H`/`%M`/`%S`
fields accept unpadded values). -/
def take1or2 : List Char → Option (Nat × List Char)
  | c1 :: c2 :: rest =>
    match digitVal c1, digitVal c2 with
    | some d1, some d2 => some (d1 * 10 + d2, rest)
    | some d1, none => some (d1, c2 :: rest)
    | none, _ => none
  | [c1] => (digitVal c1).map fun d => (d, [])
  | [] => none

/-- Consume one expected literal character. -/
def expectChar (c : Char) : List Char → Option (List Char)
  | x :: rest => if x = c then some rest else none
  | [] => none

/-- Proleptic Gregorian leap-year test. -/
def isLeapYear (y : Nat) : Bool :=
  y % 4 == 0 && (y % 100 != 0 || y % 400 == 0)

/-- Length of a month. -/
def daysInMonth (y m : Nat) : Nat :=
  if m = 2 then (if isLeapYear y then 29 else 28)
  else if m = 4 ∨ m = 6 ∨ m = 9 ∨ m = 11 then 30
  else 31

/-- Days before month `m` in year `y`. -/
def daysBeforeMonth (y m : Nat) : Nat :=
  let base := [0, 0, 31, 59, 90, 120, 151, 181, 212, 243, 273, 304,
    334].getD m 0
  if 3 ≤ m ∧ isLeapYear y then base + 1 else base

/-- Calendar validity as `datetime` enforces it. -/
def validYMD (y m d : Nat) : Bool :=
  decide (1 ≤ y ∧ y ≤ 9999 ∧ 1 ≤ m ∧ m ≤ 12 ∧ 1 ≤ d) &&
    decide (d ≤ daysInMonth y m)

/-- Time-of-day validity as `datetime` enforces it. -/
def validHMS (h mi s : Nat) : Bool :=
  decide (h ≤ 23 ∧ mi ≤ 59 ∧ s ≤ 59)

/-- Days since 1970-01-01 of a proleptic Gregorian date. -/
def epochDay (y m d : Nat) : Int :=
  (365 * (y - 1) + (y - 1) / 4 + (y - 1) / 400 + daysBeforeMonth y m
    + (d - 1) - (y - 1) / 100 : Nat) - 719162

/-- UTC epoch seconds of a wall-clock reading at the given UTC offset. -/
def mkInstant (y m d h mi s : Nat) (offsetSec : Int) : Int :=
  epochDay y m d * 86400 + (h * 3600 + mi * 60 + s : Nat) - offsetSec

/-- Drop one optional colon. -/
def dropColon : List Char → List Char
  | ':' :: r => r
  | r => r

/-- Optional `[:]SS` group of the `%z` regex; on no match the input is
returned unconsumed (a later full-match check rejects leftovers). -/
def parseOptSec (cs : List Char) : Int × List Char :=
  match take2 (dropColon cs) with
  | some (ss, rest) => if ss ≤ 59 then ((ss : Int), rest) else (0, cs)
  | none => (0, cs)

/-- The strptime `%z` field: `Z`, or `±HH[:]MM[[:]SS]` with the offset
within a day (a larger offset makes `timezone()` raise, i.e. the parse
fails). -/
def parseZOffset : List Char → Option (Int × List Char)
  | [] => none
  | c :: rest =>
    if c = 'Z' then some (0, rest)
    else if c = '+' ∨ c = '-' then
      match take2 rest with
      | none => none
      | some (hh, rest1) =>
        match take2 (dropColon rest1) with
        | none => none
        | some (mm, rest2) =>
          if hh ≤ 23 ∧ mm ≤ 59 then
            match parseOptSec rest2 with
            | (ss, rest3) =>
              let total : Int := hh * 3600 + mm * 60 + ss
              some (if c = '-' then -total else total, rest3)
          else none
    else none

/-- `datetime.strptime(s, "%Y-%m-%d %H:%M:%S %z")`. -/
def parseCanonical (s : String) : Option Int := do
  let cs := s.data
  let (y, cs) ← take4 cs
  let cs ← expectChar '-' cs
  let (m, cs) ← take1or2 cs
  let cs ← expectChar '-' cs
  let (d, cs) ← take1or2 cs
  let cs ← expectChar ' ' cs
  let (h, cs) ← take1or2 cs
  let cs ← expectChar ':' cs
  let (mi, cs) ← take1or2 cs
  let cs ← expectChar ':' cs
  let (sec, cs) ← take1or2 cs
  let cs ← expectChar ' ' cs
  let (off, cs) ← parseZOffset cs
  if cs = [] ∧ validYMD y m d = true ∧ validHMS h mi sec = true then
    some (mkInstant y m d h mi sec off)
  else none

/-- The offset tail accepted by `datetime.fromisoformat`:
`±HH[[:]MM[[:]SS]]`. -/
def parseIsoOffset : List Char → Option (Int × List Char)
  | [] => none
  | c :: rest =>
    if c = '+' ∨ c = '-' then
      match take2 rest with
      | none => none
      | some (hh, rest1) =>
        if hh ≤ 23 then
          match parseOptSec rest1 with
          | (mm, rest2) =>
            match parseOptSec rest2 with
            | (ss, rest3) =>
              let total : Int := hh * 3600 + mm * 60 + ss
              some (if c = '-' then -total else total, rest3)
        else none
    else none

/-- The CPython 3.11 `fromisoformat` time parser locates the timezone by
scanning the time string for the first `Z`/`+`/`-`; this splits at that
marker. -/
def splitAtTzMarker : List Char → List Char × List Char
  | [] => ([], [])
  | c :: rest =>
    if c = 'Z' ∨ c = '+' ∨ c = '-' then ([], c :: rest)
    else
      match splitAtTzMarker rest with
      | (a, b) => (c :: a, b)

/-- `HH[:MM[:SS]]` with whatever follows returned as leftover (the
CPython `parse_hh_mm_ss_ff` shape, without fractional seconds). -/
def parseTimeFields (cs : List Char) :
    Option (Nat × Nat × Nat × List Char) := do
  let (h, cs1) ← take2 cs
  match cs1 with
  | ':' :: r1 => do
    let (mi, cs2) ← take2 r1
    match cs2 with
    | ':' :: r2 => do
      let (s, cs3) ← take2 r2
      pure (h, mi, s, cs3)
    | _ => pure (h, mi, 0, cs2)
  | _ => pure (h, 0, 0, cs1)

/-- The timezone tail located by the marker scan: nothing (naive), a
final uppercase `Z`, or a signed offset that must consume the rest. -/
def parseIsoTZ : List Char → Option (Option Int)
  | [] => some none
  | 'Z' :: rest => if rest = [] then some (some 0) else none
  | cs =>
    match parseIsoOffset cs with
    | some (off, rest) => if rest = [] then some (some off) else none
    | none => none

/-- `datetime.fromisoformat` as CPython 3.11 implements it, restricted to
the dashed `YYYY-MM-DD` date form and without fractional seconds (the
compact/week-date forms and fractions are not exercised by the program's
inputs or by any claim).  Faithful quirks kept: the date/time separator
is any single character; the timezone is found by scanning for the first
`Z`/`+`/`-`, and exactly one stray character is tolerated between the
parsed time fields and that marker; `Z` must be final and uppercase;
minutes and seconds of both the time and the offset are optional.  A
missing offset leaves a naive value which every caller in parser.py
immediately re-interprets as UTC, so the UTC instant is returned
directly. -/
def parseIso (s : String) : Option Int := do
  let cs := s.data
  let (y, cs) ← take4 cs
  let cs ← expectChar '-' cs
  let (m, cs) ← take2 cs
  let cs ← expectChar '-' cs
  let (d, cs) ← take2 cs
  match cs with
  | [] =>
    if validYMD y m d = true then some (mkInstant y m d 0 0 0 0) else none
  | _sep :: rest =>
    match splitAtTzMarker rest with
    | (timePart, tzPart) => do
      let (h, mi, sec, leftover) ← parseTimeFields timePart
      if leftover = [] ∨ (leftover.length = 1 ∧ tzPart ≠ []) then
        match parseIsoTZ tzPart with
        | none => none
        | some off? =>
          if validYMD y m d = true ∧ validHMS h mi sec = true then
            some (mkInstant y m d h mi sec (off?.getD 0))
          else none
      else none

/-- `datetime.strptime(s, "%Y-%m-%d %H:%M:%S")`, assumed UTC. -/
def parseNaiveDT (s : String) : Option Int := do
  let cs := s.data
  let (y, cs) ← take4 cs
  let cs ← expectChar '-' cs
  let (m, cs) ← take1or2 cs
  let cs ← expectChar '-' cs
  let (d, cs) ← take1or2 cs
  let cs ← expectChar ' ' cs
  let (h, cs) ← take1or2 cs
  let cs ← expectChar ':' cs
  let (mi, cs) ← take1or2 cs
  let cs ← expectChar ':' cs
  let (sec, cs) ← take1or2 cs
  if cs = [] ∧ validYMD y m d = true ∧ validHMS h mi sec = true then
    some (mkInstant y m d h mi sec 0)
  else none

/-- `datetime.strptime(s, "%Y-%m-%d")`, assumed UTC. -/
def parseNaiveDate (s : String) : Option Int := do
  let cs := s.data
  let (y, cs) ← take4 cs
  let cs ← expectChar '-' cs
  let (m, cs) ← take1or2 cs
  let cs ← expectChar '-' cs
  let (d, cs) ← take1or2 cs
  if cs = [] ∧ validYMD y m d = true then
    some (mkInstant y m d 0 0 0 0)
  else none

/-- Python `value.strip()`. -/
def pyStrip (s : String) : String :=
  ⟨((s.data.dropWhile Char.isWhitespace).reverse.dropWhile
    Char.isWhitespace).reverse⟩

/-- Python `s[-1:] in ("Z", "z")`. -/
def lastIsZ (s : String) : Bool :=
  match s.data.getLast? with
  | some c => c == 'Z' || c == 'z'
  | none => false

/-- Branch 1 of `to_datetime`: strip the trailing `Z`/`z` and parse the
rest with an appended zero offset; on failure return `None` without
trying the later branches. -/
def zuluBranch (s : String) : Option Int :=
  parseIso ⟨s.data.dropLast ++ "+00:00".data⟩

/-- `to_datetime` on a string input. -/
def toDatetimeStr (value : String) : Option Int :=
  let s := pyStrip value
  if s.data = [] then none
  else if lastIsZ s then zuluBranch s
  else
    match parseCanonical s with
    | some t => some t
    | none =>
      match parseIso s with
      | some t => some t
      | none =>
        match parseNaiveDT s with
        | some t => some t
        | none => parseNaiveDate s

/-- `to_datetime` (`None` input propagates; `datetime` inputs are already
instants and do not occur in the embedded call sites). -/
def toDatetime : Option String → Option Int
  | none => none
  | some s => toDatetimeStr s

/-- Modelled from the spec: the format precedence as §4.1 words it —
each format tried in order with the first success winning, the Zulu rule
applying to trailing-`Z`/`z` strings and falling through on failure.
Compared against `toDatetimeStr` to settle the precedence claim. -/
def specToDatetime (value : String) : Option Int :=
  let s := pyStrip value
  if s.data = [] then none
  else
    ((((if lastIsZ s then zuluBranch s
        else none).orElse fun _ => parseCanonical s).orElse fun _ =>
          parseIso s).orElse fun _ => parseNaiveDT s).orElse fun _ =>
            parseNaiveDate s

/-! ## Attribute maps and elements

A Python dict is modelled as an insertion-ordered association list with
unique keys: updates keep the key's position, new keys append at the
end.  An attribute value is either a scalar string or a list of nested
attribute mappings (the flattened-children shape of §4.2). -/

inductive AttrValue where
  | str : String → AttrValue
  | list : List (List (String × AttrValue)) → AttrValue

abbrev AttrMap := List (String × AttrValue)

/-- `dict.get`. -/
def getA : AttrMap → String → Option AttrValue
  | [], _ => none
  | (k, v) :: rest, key => if k = key then some v else getA rest key

/-- `dict.__setitem__`: replace in place or append at the end. -/
def setA : AttrMap → String → AttrValue → AttrMap
  | [], key, v => [(key, v)]
  | (k, w) :: rest, key, v =>
    if k = key then (k, v) :: rest else (k, w) :: setA rest key v

/-- `dict.setdefault` (the value-returning aspect is inlined at use
sites). -/
def setdefaultA (m : AttrMap) (key : String) (v : AttrValue) : AttrMap :=
  match getA m key with
  | some _ => m
  | none => m ++ [(key, v)]

/-- An XML element: tag, attributes, children (lxml `_Element`). -/
inductive XElem where
  | mk (tag : String) (attrib : List (String × String)) (children : List XElem)

def XElem.tag : XElem → String
  | .mk t _ _ => t

def XElem.attrib : XElem → List (String × String)
  | .mk _ a _ => a

def XElem.children : XElem → List XElem
  | .mk _ _ c => c

/-- `dict(elem.attrib)`. -/
def dictOfAttrib (l : List (String × String)) : AttrMap :=
  l.foldl (fun m kv => setA m kv.1 (.str kv.2)) []

/-- `elem.get(key)`. -/
def XElem.get (e : XElem) (key : String) : Option String :=
  match getA (dictOfAttrib e.attrib) key with
  | some (.str s) => some s
  | _ => none

/-- `attrs.setdefault(child.tag, []).append(nested)`: append to the list
at `key`, creating it when absent; a scalar already stored at `key` makes
Python raise `AttributeError`, modelled as `none`. -/
def appendNested (m : AttrMap) (key : String) (nested : AttrMap) :
    Option AttrMap :=
  match getA m key with
  | none => some (m ++ [(key, .list [nested])])
  | some (.list ls) => some (setA m key (.list (ls ++ [nested])))
  | some (.str _) => none

mutual

/-- `HealthRecord._parse_attributes`. -/
def parseAttributes : XElem → Option AttrMap
  | .mk _ attrib children => parseChildren (dictOfAttrib attrib) children

/-- The `for child in elem.iterchildren()` loop of
`_parse_attributes`. -/
def parseChildren : AttrMap → List XElem → Option AttrMap
  | m, [] => some m
  | m, c :: cs =>
    if c.tag = "MetadataEntry" then
      match c.get "key", c.get "value" with
      | some k, some v =>
        if k ≠ "" then parseChildren (setA m k (.str v)) cs
        else parseChildren m cs
      | _, _ => parseChildren m cs
    else
      match parseAttributes c with
      | none => none
      | some nested =>
        match appendNested m c.tag (setdefaultA nested "_tag"
            (.str c.tag)) with
        | none => none
        | some m2 => parseChildren m2 cs

end

/-- The payload of the frozen dataclass `HealthRecord`. -/
structure HealthRecord where
  tag : String
  record_type : String
  start_dt : Option Int
  end_dt : Option Int
  attributes : AttrMap

/-- Python truthiness-based reading of an attribute value as a string:
absent, empty, or non-scalar values fall through an `or` chain. -/
def truthyStr : Option AttrValue → Option String
  | some (.str s) => if s = "" then none else some s
  | _ => none

/-- `attrs.get(key)` passed to `to_datetime`, whose `isinstance(str)`
check rejects non-scalar values. -/
def getStr (attrs : AttrMap) (key : String) : Option String :=
  match getA attrs key with
  | some (.str s) => some s
  | _ => none

/-- `HealthRecord._determine_record_type`. -/
def determineRecordType (tag : String) (attrs : AttrMap) : String :=
  let typ := truthyStr (getA attrs "type")
  if tag = "Workout" then
    (truthyStr (getA attrs "workoutActivityType")).getD tag
  else if tag = "Correlation" ∨ tag = "Audiogram" ∨
      tag = "ClinicalRecord" then
    typ.getD tag
  else if tag = "ActivitySummary" ∨ tag = "Me" ∨ tag = "ExportDate" then
    tag
  else typ.getD tag

/-- `HealthRecord._derive_time_window`. -/
def deriveTimeWindow (attrs : AttrMap) : Option Int × Option Int :=
  let s := toDatetime (getStr attrs "startDate")
  let c := toDatetime (getStr attrs "creationDate")
  let e := toDatetime (getStr attrs "endDate")
  let start_dt := (s.orElse fun _ => c).orElse fun _ => e
  let end_dt := (e.orElse fun _ => s).orElse fun _ => c
  match start_dt, end_dt with
  | some sd, some ed => (some sd, some (if ed < sd then sd else ed))
  | _, _ => (start_dt, end_dt)

/-- `HealthRecord.from_element` (`none` models a parsing exception). -/
def fromElement (elem : XElem) : Option HealthRecord :=
  match parseAttributes elem with
  | none => none
  | some attrs0 =>
    let tag := elem.tag
    let attrs1 := setA attrs0 "_tag" (.str tag)
    let rt := determineRecordType tag attrs1
    let attrs2 := setA attrs1 "_type" (.str rt)
    match deriveTimeWindow attrs2 with
    | (sd, ed) => some ⟨tag, rt, sd, ed, attrs2⟩

/-- `HealthRecord.to_dict` (the dict copy is identity on the immutable
model). -/
def HealthRecord.to_dict (r : HealthRecord) : AttrMap := r.attributes

/-- `HealthRecord.from_dict` (total: the `TypeError` guard is static in
the embedding). -/
def fromDict (attrs0 : AttrMap) : HealthRecord :=
  let tag := ((truthyStr (getA attrs0 "_tag")).orElse fun _ =>
    truthyStr (getA attrs0 "tag")).getD "Record"
  let attrs1 := setA attrs0 "_tag" (.str tag)
  let rt := (truthyStr (getA attrs1 "_type")).getD
    (determineRecordType tag attrs1)
  let attrs2 := setA attrs1 "_type" (.str rt)
  match deriveTimeWindow attrs2 with
  | (sd, ed) => ⟨tag, rt, sd, ed, attrs2⟩

/-- `HealthRecord.is_any_of_types`. -/
def isAnyOfTypes (r : HealthRecord) (allowed : Option (List String)) :
    Bool :=
  match allowed with
  | none => true
  | some l => decide (r.record_type ∈ l ∨ r.tag ∈ l)

/-- `HealthRecord.intersects_time_window`. -/
def intersectsTimeWindow (r : HealthRecord) (ws we : Option Int) : Bool :=
  if ws = none ∧ we = none then true
  else
    match r.start_dt, r.end_dt with
    | some sd, some ed =>
      if Option.any (fun w => decide (ed < w)) ws then false
      else if Option.any (fun w => decide (sd > w)) we then false
      else true
    | _, _ => false

/-- `set(types) if types else None`: an empty collection behaves as no
filter. -/
def mkTypesSet : Option (List String) → Option (List String)
  | none => none
  | some l => if l = [] then none else some l

/-- Python truthy read of an optional string (`a or b` chains). -/
def truthyS : Option String → Option String
  | some s => if s = "" then none else some s
  | none => none

/-- The early type pre-filter of `iter_health_records` (`true` = keep
going). -/
def passesTypePre (typesSet : Option (List String)) (elem : XElem) :
    Bool :=
  match typesSet with
  | none => true
  | some ts =>
    match (truthyS (elem.get "type")).orElse
        (fun _ => truthyS (elem.get "workoutActivityType")) with
    | none => true
    | some t => if t ∉ ts ∧ elem.tag ∉ ts then false else true

/-- The early time pre-filter of `iter_health_records` (`true` = keep
going). -/
def passesTimePre (sdt edt : Option Int) (elem : XElem) : Bool :=
  if sdt = none ∧ edt = none then true
  else
    let es := toDatetime (elem.get "startDate")
    let ee := toDatetime (elem.get "endDate")
    if (match sdt, ee with
        | some w, some e => decide (e < w)
        | _, _ => false) then false
    else if (match edt, es with
        | some w, some s => decide (s > w)
        | _, _ => false) then false
    else true

/-- The per-element body of the `iter_health_records` loop:
`some none` = discarded, `some (some r)` = yielded, `none` = a parsing
exception. -/
def processTopLevel (typesSet : Option (List String)) (sdt edt : Option Int)
    (elem : XElem) : Option (Option HealthRecord) :=
  if passesTypePre typesSet elem = false then some none
  else if passesTimePre sdt edt elem = false then some none
  else
    match fromElement elem with
    | none => none
    | some r =>
      if isAnyOfTypes r typesSet && intersectsTimeWindow r sdt edt then
        some (some r)
      else some none

/-- `iter_health_records` restricted to its per-document loop: the
records yielded for the top-level children, in order. -/
def iterRecordsCore (children : List XElem)
    (typesSet : Option (List String)) (sdt edt : Option Int) :
    Option (List HealthRecord) :=
  match children.mapM (processTopLevel typesSet sdt edt) with
  | none => none
  | some l => some l.reduceOption

/-- The reference pipeline of the pre-filter claim: fully construct a
Record from every top-level child and apply only the full filters
`is_any_of_types` and `intersects_time_window`. -/
def fullFilterOnly (children : List XElem)
    (typesSet : Option (List String)) (sdt edt : Option Int) :
    Option (List HealthRecord) :=
  match children.mapM fromElement with
  | none => none
  | some rs =>
    some (rs.filter fun r =>
      isAnyOfTypes r typesSet && intersectsTimeWindow r sdt edt)

/-! ## Helper lemmas: attribute dictionaries -/

theorem getA_setA_same (m : AttrMap) (k : String) (v : AttrValue) :
    getA (setA m k v) k = some v := by
  induction m with
  | nil => simp [setA, getA]
  | cons kv rest ih =>
    rcases kv with ⟨k1, v1⟩
    by_cases h : k1 = k
    · simp [setA, getA, h]
    · simp [setA, getA, h, ih]

theorem getA_setA_ne (m : AttrMap) (k k2 : String) (v : AttrValue)
    (h : k2 ≠ k) : getA (setA m k v) k2 = getA m k2 := by
  induction m with
  | nil =>
    simp [setA, getA]
    intro heq
    exact absurd heq.symm h
  | cons kv rest ih =>
    rcases kv with ⟨k1, v1⟩
    by_cases h1 : k1 = k
    · subst h1
      rw [setA, if_pos rfl, getA, getA, if_neg (fun hh => h hh.symm),
        if_neg (fun hh => h hh.symm)]
    · rw [setA, if_neg h1]
      by_cases h2 : k1 = k2
      · rw [getA, if_pos h2, getA, if_pos h2]
      · rw [getA, if_neg h2, getA, if_neg h2, ih]

theorem setA_id (m : AttrMap) (k : String) (v : AttrValue)
    (h : getA m k = some v) : setA m k v = m := by
  induction m with
  | nil => simp [getA] at h
  | cons kv rest ih =>
    rcases kv with ⟨k1, v1⟩
    by_cases hk : k1 = k
    · rw [getA, if_pos hk] at h
      have hv : v1 = v := Option.some.inj h
      rw [setA, if_pos hk, hv]
    · rw [getA, if_neg hk] at h
      rw [setA, if_neg hk, ih h]

theorem determineRecordType_setA_irrel (tag : String) (m : AttrMap)
    (k : String) (v : AttrValue) (h1 : k ≠ "type")
    (h2 : k ≠ "workoutActivityType") :
    determineRecordType tag (setA m k v) = determineRecordType tag m := by
  unfold determineRecordType
  rw [getA_setA_ne m k "type" v (fun hh => h1 hh.symm),
    getA_setA_ne m k "workoutActivityType" v (fun hh => h2 hh.symm)]

/-! ## Claim theorems for parser.py -/

/-- C5: round-trip. Every record the reader builds from an element (XML
tags are non-empty) reconstructs identically from its own serialized
attribute mapping. -/
theorem c5_round_trip (elem : XElem) (r : HealthRecord)
    (htag : elem.tag ≠ "") (h : fromElement elem = some r) :
    (fromDict r.to_dict).tag = r.tag ∧
    (fromDict r.to_dict).record_type = r.record_type ∧
    (fromDict r.to_dict).start_dt = r.start_dt ∧
    (fromDict r.to_dict).end_dt = r.end_dt ∧
    (fromDict r.to_dict).to_dict = r.to_dict := by
  unfold fromElement at h
  cases hp : parseAttributes elem with
  | none =>
    rw [hp] at h
    exact absurd h (by simp)
  | some attrs0 =>
    rw [hp] at h
    simp only at h
    set A1 := setA attrs0 "_tag" (.str elem.tag) with hA1
    set rt := determineRecordType elem.tag A1 with hrt
    set A := setA A1 "_type" (.str rt) with hA
    obtain ⟨sd, ed, hd⟩ : ∃ sd ed, deriveTimeWindow A = (sd, ed) :=
      ⟨_, _, rfl⟩
    rw [hd] at h
    have hr : r = ⟨elem.tag, rt, sd, ed, A⟩ := (Option.some.inj h).symm
    subst hr
    have k1 : getA A "_tag" = some (.str elem.tag) := by
      rw [hA, getA_setA_ne _ _ _ _ (by decide), hA1, getA_setA_same]
    have k2 : getA A "_type" = some (.str rt) := by
      rw [hA, getA_setA_same]
    have hstab : determineRecordType elem.tag A = rt := by
      rw [hA, determineRecordType_setA_irrel _ _ _ _ (by decide) (by decide)]
    have hAtag : setA A "_tag" (.str elem.tag) = A := setA_id _ _ _ k1
    have hAtype : setA A "_type" (.str rt) = A := setA_id _ _ _ k2
    have htagv : ((truthyStr (getA A "_tag")).orElse fun _ =>
        truthyStr (getA A "tag")).getD "Record" = elem.tag := by
      rw [k1]
      simp only [truthyStr]
      rw [if_neg htag]
      rfl
    have hrtD : (truthyStr (getA A "_type")).getD
        (determineRecordType elem.tag A) = rt := by
      rw [k2, hstab]
      simp only [truthyStr]
      by_cases h0 : rt = ""
      · rw [if_pos h0]
        rfl
      · rw [if_neg h0]
        rfl
    have hfd : fromDict A = ⟨elem.tag, rt, sd, ed, A⟩ := by
      unfold fromDict
      rw [htagv]
      simp only [hAtag, hrtD, hAtype, hd]
    simp only [HealthRecord.to_dict] at hfd ⊢
    rw [hfd]
    exact ⟨rfl, rfl, rfl, rfl, rfl⟩

/-- A concrete heart-rate element for the round-trip witness. -/
def c5WitnessElem : XElem :=
  .mk "Record" [("type", "HKQuantityTypeIdentifierHeartRate"),
                ("startDate", "2024-01-20 15:30:00 +0000")] []

/-- Witness for C5 at a concrete element. -/
theorem c5_witness :
    ∃ r, fromElement c5WitnessElem = some r ∧
      (fromDict r.to_dict).tag = r.tag ∧
      (fromDict r.to_dict).to_dict = r.to_dict := by
  obtain ⟨r, hr⟩ : ∃ r, fromElement c5WitnessElem = some r := ⟨_, rfl⟩
  have h := c5_round_trip c5WitnessElem r (by decide) hr
  exact ⟨r, hr, h.1, h.2.2.2.2⟩

/-- The pre-filter failing input: a record whose raw `endDate` (Jan 5)
precedes the window start (Jan 10) while its `startDate` (Jan 15) lies
inside the window `[Jan 10, Jan 20]` of 2024; derivation clamps the
reversed end to the start. -/
def c1FailingElem : XElem :=
  .mk "Record" [("startDate", "2024-01-15 00:00:00"),
                ("endDate", "2024-01-05 00:00:00")] []

/-- C1: the cheap time pre-filter discards a record that the full filter
keeps.  At the failing input the reader yields nothing, while the
reference pipeline (full construction of every top-level child plus only
`is_any_of_types` and `intersects_time_window`) yields the record: the
pre-filter compares the raw reversed `endDate` against the window, but
`_derive_time_window` clamps that end to the in-window start. -/
theorem c1_reader_bug :
    iterRecordsCore [c1FailingElem] none (some 1704844800)
      (some 1705708800) = some [] ∧
    (fullFilterOnly [c1FailingElem] none (some 1704844800)
      (some 1705708800)).map List.length = some 1 ∧
    passesTimePre (some 1704844800) (some 1705708800) c1FailingElem =
      false ∧
    ∃ r, fromElement c1FailingElem = some r ∧
      isAnyOfTypes r none = true ∧
      intersectsTimeWindow r (some 1704844800) (some 1705708800) = true :=
  ⟨rfl, rfl, rfl, ⟨_, rfl, rfl, rfl⟩⟩

/-- C8, counterexample to first-success-wins: `"2024-1-20 15:30:00 Z"`
ends in `Z`, so `to_datetime` commits to the Zulu branch, whose
`fromisoformat` call rejects the unpadded month and returns `None` —
although the canonical `strptime` format (whose `%m` accepts an unpadded
month and whose `%z` accepts a literal `Z`) succeeds on the same string,
as the spec-worded fall-through precedence would require. -/
theorem c8_zulu_counterexample :
    toDatetimeStr "2024-1-20 15:30:00 Z" = none ∧
    specToDatetime "2024-1-20 15:30:00 Z" = some 1705764600 ∧
    parseCanonical "2024-1-20 15:30:00 Z" = some 1705764600 :=
  ⟨rfl, rfl, rfl⟩

/-- C8 (amended): `to_datetime` is total (by construction of the model);
a trimmed input ending in `Z`/`z` is resolved exclusively by the Zulu
branch with no fall-through on failure, and every other non-empty input
tries canonical, ISO-offset, naive date-time and naive date in that
order, first success winning; the spec's two example strings denote the
same instant. -/
theorem c8_to_datetime :
    (∀ s : String, lastIsZ (pyStrip s) = true →
      toDatetimeStr s = zuluBranch (pyStrip s)) ∧
    (∀ s : String, lastIsZ (pyStrip s) = false → (pyStrip s).data ≠ [] →
      toDatetimeStr s =
        (((parseCanonical (pyStrip s)).orElse fun _ =>
          parseIso (pyStrip s)).orElse fun _ =>
            parseNaiveDT (pyStrip s)).orElse fun _ =>
              parseNaiveDate (pyStrip s)) ∧
    toDatetimeStr "2024-01-20 15:30:00Z" =
      toDatetimeStr "2024-01-20T08:30:00-07:00" ∧
    toDatetimeStr "2024-01-20 15:30:00Z" = some 1705764600 := by
  refine ⟨?_, ?_, rfl, rfl⟩
  · intro s hz
    have hne : (pyStrip s).data ≠ [] := by
      intro h0
      unfold lastIsZ at hz
      rw [h0] at hz
      simp at hz
    unfold toDatetimeStr
    rw [if_neg hne, if_pos hz]
  · intro s hz hne
    unfold toDatetimeStr
    rw [if_neg hne, if_neg (by simp [hz])]
    cases h1 : parseCanonical (pyStrip s) with
    | some t => simp [Option.orElse]
    | none =>
      cases h2 : parseIso (pyStrip s) with
      | some t => simp [Option.orElse]
      | none =>
        cases h3 : parseNaiveDT (pyStrip s) with
        | some t => simp [Option.orElse]
        | none => simp [Option.orElse]

/-- Witness for C8 on both branches. -/
theorem c8_witness :
    toDatetimeStr "2024-01-20 15:30:00Z" =
      zuluBranch (pyStrip "2024-01-20 15:30:00Z") ∧
    toDatetimeStr "2024-01-20" =
      (((parseCanonical (pyStrip "2024-01-20")).orElse fun _ =>
        parseIso (pyStrip "2024-01-20")).orElse fun _ =>
          parseNaiveDT (pyStrip "2024-01-20")).orElse fun _ =>
            parseNaiveDate (pyStrip "2024-01-20") :=
  ⟨c8_to_datetime.1 "2024-01-20 15:30:00Z" rfl,
   c8_to_datetime.2.1 "2024-01-20" rfl (by decide)⟩
